import Mathlib

/-
Verification of the reconciliation core (package reconcile) and the sibling
log parser (package source) of repository sevki/x.

The reconcile package diffs a current State against a desired State and
applies the resulting actions.  Go interface values are modelled by the
inductive type `Value`; a value optionally carries a checksum (the
`Checksumed` capability, a runtime type assertion in Go), modelled by
`checksum?`.  `reflect.DeepEqual` on such values is structural equality of
`Value`.  A `State` is modelled by its canonical faithful implementation, an
association list walked in order; `Get` returns `none` exactly when the Go
`Get` returns the nil interface.  A Go runtime panic (the out-of-range slice
`sum[:5]` in `compare`) is modelled by `Except.error ()`; `%v` rendering of
an opaque value is abstracted by `render`, and `%x` by `hexBytes`.
-/

namespace Reconcile

/-- Opaque stored values: either a plain value compared with
`reflect.DeepEqual` only, or a blob that implements the `Checksumed`
capability, whose `Sum()` returns the byte slice `sum`. -/
inductive Value where
  | plain (n : Int) : Value
  | blob (data : List Nat) (sum : List Nat) : Value
deriving DecidableEq

/-- The `Checksumed` type assertion: `v.(Checksumed)` together with `Sum()`. -/
def checksum? : Value → Option (List Nat)
  | .plain _ => none
  | .blob _ s => some s

/-- Abstraction of the fmt `%v` rendering of an opaque value. -/
def render : Value → String
  | .plain n => toString n
  | .blob _ _ => "blob"

/-- One hexadecimal digit, lowercase, as fmt `%x` prints it. -/
def hexDigit (n : Nat) : String :=
  if n < 10 then toString n
  else if n = 10 then "a" else if n = 11 then "b" else if n = 12 then "c"
  else if n = 13 then "d" else if n = 14 then "e" else "f"

/-- One byte in `%x` form: two lowercase hex digits. -/
def hexByte (n : Nat) : String :=
  hexDigit (n / 16 % 16) ++ hexDigit (n % 16)

/-- A byte slice in `%x` form. -/
def hexBytes (l : List Nat) : String :=
  String.join (l.map hexByte)

/-- The `state` enumeration of the Go source: `new`, `old`, `dirty` (iota). -/
inductive state where
  | new : state
  | old : state
  | dirty : state
deriving DecidableEq

/-- The Go `state.String` method: case 0 is "Add", 1 is "Delete",
2 is "Update" (the default "" branch is unreachable for the three
constants the program creates). -/
def state.String : state → String
  | .new => "Add"
  | .old => "Delete"
  | .dirty => "Update"

/-- The `update` struct: one pending action. `v` is the Go interface value,
`none` standing for nil (delete actions). -/
structure update where
  key : String
  st : state
  v : Option Value
  why : String
deriving DecidableEq

/-- A State: the canonical faithful implementation of the Go `State`
interface, an association list whose `Walk` visits entries in order. -/
abbrev StateM := List (String × Value)

/-- The keys of a state, in walk order. -/
def keys (s : StateM) : List String := s.map Prod.fst

/-- A well-formed store maps each key to at most one entry. -/
def WF (s : StateM) : Prop := (keys s).Nodup

/-- The `Get` method: the value bound to `k`, or `none` (Go nil) when
absent. -/
def Get (s : StateM) (k : String) : Option Value :=
  (s.find? (fun p => p.1 == k)).map (fun p => p.2)

/-- The `Add` method: bind `k` to `v` (a new entry). -/
def Add (s : StateM) (k : String) (v : Value) : StateM :=
  s ++ [(k, v)]

/-- The `Update` method: rebind an existing key `k` to `v`. -/
def Update (s : StateM) (k : String) (v : Value) : StateM :=
  s.map (fun p => if p.1 = k then (k, v) else p)

/-- The `Delete` method: remove the entries bound to `k`. -/
def Delete (s : StateM) (k : String) : StateM :=
  s.filter (fun p => ¬ p.1 == k)

/-- The message of `ErrDeepEqualMismatch`. -/
def ErrDeepEqualMismatch : String := "reflect.Deepequal mismatch"

/-- The mismatch message built by `compare` for two checksummed values:
fmt.Errorf with the two values and the first five bytes of each sum in
hex. -/
def checksumWhy (a : Value) (sa : List Nat) (b : Value) (sb : List Nat) : String :=
  render a ++ " sum=" ++ hexBytes (sa.take 5) ++ " != " ++
    render b ++ " sum=" ++ hexBytes (sb.take 5)

/-- The `compare` function.  When both values carry the `Checksumed`
capability the sums are compared byte for byte; on a mismatch the Go code
slices both sums with `[:5]`, which panics (`Except.error ()`) when a sum
is shorter than five bytes.  Otherwise `reflect.DeepEqual` decides, a
mismatch carrying `ErrDeepEqualMismatch`.  `Except.ok none` is the nil
error (a match); `Except.ok (some why)` is a non-nil error (a mismatch). -/
def compare (a b : Value) : Except Unit (Option String) :=
  match checksum? a, checksum? b with
  | some sa, some sb =>
    if sa = sb then .ok none
    else if 5 ≤ sa.length ∧ 5 ≤ sb.length then .ok (some (checksumWhy a sa b sb))
    else .error ()
  | _, _ =>
    if a = b then .ok none else .ok (some ErrDeepEqualMismatch)

/-- The reason attached to a create action, from the Go fmt.Sprintf. -/
def whyNew (k : String) : String :=
  "current state doesn't have " ++ k ++ " doesn't exist"

/-- The reason attached to a delete action, from the Go fmt.Sprintf. -/
def whyOld (k : String) : String :=
  "currentValue is with key " ++ k ++ " marked for deletion"

/-- Phase 1 of `diff`: the walk of `desired`.  Each visited pair whose key
is absent from `current` yields a `new` action; a present key whose values
compare unequal yields a `dirty` action; a panic inside `compare` aborts
the walk. -/
def walkDesired (current : StateM) : List (String × Value) → Except Unit (List update)
  | [] => .ok []
  | (k, v) :: rest =>
    match Get current k with
    | none =>
      (walkDesired current rest).map (fun tail => ⟨k, .new, some v, whyNew k⟩ :: tail)
    | some currentValue =>
      match compare currentValue v with
      | .error e => .error e
      | .ok none => walkDesired current rest
      | .ok (some w) =>
        (walkDesired current rest).map (fun tail => ⟨k, .dirty, some v, w⟩ :: tail)

/-- Phase 2 of `diff`: the walk of `current`.  Each visited key absent from
`desired` yields an `old` action with a nil value. -/
def walkCurrent (desired : StateM) (cur : List (String × Value)) : List update :=
  cur.filterMap (fun p =>
    if Get desired p.1 = none then some ⟨p.1, .old, none, whyOld p.1⟩ else none)

/-- The `diff` function: phase 1 over `desired`, then phase 2 over
`current`, appended in that order. -/
def diff (current desired : StateM) : Except Unit (List update) :=
  (walkDesired current desired).map (fun us => us ++ walkCurrent desired current)

/-- One step of `fix`: dispatch an action to the matching State method.
`diff` only emits `new` and `dirty` actions whose payload came from a walk,
so their payload is never the nil interface; the `none` fallthrough is
unreachable on `diff` output. -/
def applyAction (current : StateM) (u : update) : StateM :=
  match u.st, u.v with
  | .new, some v => Add current u.key v
  | .old, _ => Delete current u.key
  | .dirty, some v => Update current u.key v
  | .new, none => current
  | .dirty, none => current

/-- The `fix` function: apply the actions in order. -/
def fix (current : StateM) : List update → StateM
  | [] => current
  | u :: rest => fix (applyAction current u) rest

/-- The trace line `fix` logs for one action when verbose:
log.Printf with key, `state.String` and the reason. -/
def traceLine (u : update) : String :=
  "key:" ++ u.key ++ " state:" ++ state.String u.st ++ "\n\twhy:" ++ u.why ++ "\n "

/-- The trace emitted by one `fix` pass: one line per action when verbose,
nothing otherwise. -/
def fixTrace (us : List update) (verbose : Bool) : List String :=
  if verbose then us.map traceLine else []

/-- The `Reconcile` entry point: `fix current (diff current desired)`.
A panic in the diff pass propagates, applying nothing. -/
def Reconcile (current desired : StateM) : Except Unit StateM :=
  (diff current desired).map (fun us => fix current us)

end Reconcile

namespace Source

/-- The `Error` struct of the log parser: a source-code error extracted
from compiler output. -/
structure Error where
  File : String
  Line : Int
  Column : Int
  Message : String
deriving DecidableEq

/-- The numeric value of one ASCII digit, or `none`. -/
def digitVal (c : Char) : Option Nat :=
  if c.toNat < 48 ∨ 57 < c.toNat then none else some (c.toNat - 48)

/-- The value of a nonempty all-digit character list, or `none`. -/
def digitsVal (l : List Char) : Option Nat :=
  match l with
  | [] => none
  | _ =>
    l.foldl (fun acc c =>
      match acc, digitVal c with
      | some a, some d => some (a * 10 + d)
      | _, _ => none) (some 0)

/-- The `strconv.Atoi` conversion: an optional sign then a nonempty digit
run, anything else an error (`none`); in particular `atoi "" = none`. -/
def atoi (s : String) : Option Int :=
  match s.data with
  | '+' :: rest => (digitsVal rest).map (fun n => (n : Int))
  | '-' :: rest => (digitsVal rest).map (fun n => -(n : Int))
  | l => (digitsVal l).map (fun n => (n : Int))

/-- The body of the `ParseSourceErrors` loop, building one `Error` from one
regexp submatch record `m` (index 0 the full match, 1 the file, 2 the line,
3 the column capture — the empty string when the optional group did not
participate — and 4 the message).  Go zero-initializes the struct; the
`len(message) > 3` guard then overwrites `Message` with the fourth group. -/
def mkError (m : List String) : Error :=
  let e0 : Error := ⟨m.getD 1 "", 0, 0, ""⟩
  let e1 : Error :=
    match atoi (m.getD 2 "") with
    | some n => ⟨e0.File, n, e0.Column, e0.Message⟩
    | none => e0
  let e2 : Error :=
    match atoi (m.getD 3 "") with
    | some n => ⟨e1.File, e1.Line, n, e1.Message⟩
    | none => ⟨e1.File, e1.Line, -1, m.getD 3 ""⟩
  if 3 < m.length then ⟨e2.File, e2.Line, e2.Column, m.getD 4 ""⟩ else e2

/-- The `ParseSourceErrors` function over the submatch records produced by
`validMessage.FindAllStringSubmatch` (the regexp engine is Go library code,
modelled as the input). -/
def ParseSourceErrors (ms : List (List String)) : List Error :=
  ms.map mkError

end Source

namespace Reconcile

/-- Lookup in the empty state fails. -/
theorem Get_nil (k : String) : Get ([] : StateM) k = none := rfl

/-- The keys of a nonempty state. -/
theorem keys_cons (k' : String) (v : Value) (s : StateM) :
    keys ((k', v) :: s) = k' :: keys s := rfl

/-- Lookup in a nonempty state inspects the head entry first. -/
theorem Get_cons (k' : String) (v : Value) (s : StateM) (k : String) :
    Get ((k', v) :: s) k = if k' = k then some v else Get s k := by
  by_cases h : k' = k
  · simp [Get, List.find?, h]
  · have hb : (k' == k) = false := by simp [h]
    simp [Get, List.find?, hb, h]

/-- A key is absent exactly when no entry carries it. -/
theorem Get_none_iff (s : StateM) (k : String) :
    Get s k = none ↔ k ∉ keys s := by
  induction s with
  | nil => simp [Get_nil, keys]
  | cons p rest ih =>
    obtain ⟨k', v⟩ := p
    rw [Get_cons, keys_cons]
    by_cases h : k' = k
    · simp [h]
    · rw [if_neg h, ih]
      constructor
      · intro hns hmem
        rcases List.mem_cons.mp hmem with h1 | h2
        · exact h h1.symm
        · exact hns h2
      · exact fun hnm h2 => hnm (List.mem_cons_of_mem _ h2)

/-- A successful lookup returns an entry of the state. -/
theorem Get_mem {s : StateM} {k : String} {v : Value}
    (h : Get s k = some v) : (k, v) ∈ s := by
  induction s with
  | nil => simp [Get_nil] at h
  | cons p rest ih =>
    obtain ⟨k', v'⟩ := p
    rw [Get_cons] at h
    by_cases hk : k' = k
    · rw [if_pos hk] at h
      have hv : v' = v := Option.some.inj h
      subst hk
      subst hv
      exact List.mem_cons_self _ _
    · rw [if_neg hk] at h
      exact List.mem_cons_of_mem _ (ih h)

/-- In a well-formed state, membership determines the lookup. -/
theorem Get_of_mem {s : StateM} (hs : WF s) {k : String} {v : Value}
    (h : (k, v) ∈ s) : Get s k = some v := by
  induction s with
  | nil => simp at h
  | cons p rest ih =>
    obtain ⟨k', v'⟩ := p
    have hs' : (k' :: keys rest).Nodup := hs
    have hnodup : (keys rest).Nodup := (List.nodup_cons.mp hs').2
    have hnotin : k' ∉ keys rest := (List.nodup_cons.mp hs').1
    rw [Get_cons]
    rcases List.mem_cons.mp h with heq | hmem
    · have h1 : k' = k := (congrArg Prod.fst heq).symm
      have h2 : v' = v := (congrArg Prod.snd heq).symm
      rw [if_pos h1, h2]
    · have hk : k' ≠ k := by
        intro hk
        subst hk
        exact hnotin (List.mem_map.mpr ⟨(k', v), hmem, rfl⟩)
      rw [if_neg hk]
      exact ih hnodup hmem

end Reconcile

namespace Reconcile

/-- Adding a key makes it retrievable when it was absent. -/
theorem Get_Add_same {s : StateM} {k : String} (v : Value)
    (h : Get s k = none) : Get (Add s k v) k = some v := by
  induction s with
  | nil => simp [Add, Get_cons]
  | cons p rest ih =>
    obtain ⟨k', v'⟩ := p
    rw [Get_cons] at h
    by_cases hk : k' = k
    · rw [if_pos hk] at h
      exact absurd h (by simp)
    · rw [if_neg hk] at h
      show Get ((k', v') :: Add rest k v) k = some v
      rw [Get_cons, if_neg hk]
      exact ih h

/-- Adding one key does not change lookups of another. -/
theorem Get_Add_other {s : StateM} {k' k : String} (v : Value)
    (h : k' ≠ k) : Get (Add s k' v) k = Get s k := by
  induction s with
  | nil => simp [Add, Get_cons, h, Get_nil]
  | cons p rest ih =>
    obtain ⟨k0, v0⟩ := p
    show Get ((k0, v0) :: Add rest k' v) k = _
    rw [Get_cons, Get_cons]
    by_cases hk : k0 = k
    · rw [if_pos hk, if_pos hk]
    · rw [if_neg hk, if_neg hk]
      exact ih

/-- Deleting a key removes it. -/
theorem Get_Delete_same (s : StateM) (k : String) :
    Get (Delete s k) k = none := by
  induction s with
  | nil => rfl
  | cons p rest ih =>
    obtain ⟨k', v'⟩ := p
    by_cases hk : k' = k
    · have hb : (¬ k' == k) = False := by simp [hk]
      show Get (List.filter _ ((k', v') :: rest)) k = none
      rw [List.filter_cons]
      simp only [hb, decide_False]
      exact ih
    · have hb : (¬ k' == k) = True := by simp [hk]
      show Get (List.filter _ ((k', v') :: rest)) k = none
      rw [List.filter_cons]
      simp only [hb, decide_True, if_true]
      rw [Get_cons, if_neg hk]
      exact ih

/-- Deleting one key does not change lookups of another. -/
theorem Get_Delete_other {s : StateM} {k' k : String}
    (h : k' ≠ k) : Get (Delete s k') k = Get s k := by
  induction s with
  | nil => rfl
  | cons p rest ih =>
    obtain ⟨k0, v0⟩ := p
    show Get (List.filter _ ((k0, v0) :: rest)) k = _
    rw [List.filter_cons, Get_cons]
    by_cases hk : k0 = k'
    · have hb : (¬ k0 == k') = False := by simp [hk]
      simp only [hb, decide_False]
      have hk0 : k0 ≠ k := hk ▸ h
      rw [if_neg hk0]
      exact ih
    · have hb : (¬ k0 == k') = True := by simp [hk]
      simp only [hb, decide_True, if_true]
      rw [Get_cons]
      by_cases hk0 : k0 = k
      · rw [if_pos hk0, if_pos hk0]
      · rw [if_neg hk0, if_neg hk0]
        exact ih

/-- Updating a present key rebinds it. -/
theorem Get_Update_some {s : StateM} {k : String} {va : Value} (v : Value)
    (h : Get s k = some va) : Get (Update s k v) k = some v := by
  induction s with
  | nil => simp [Get_nil] at h
  | cons p rest ih =>
    obtain ⟨k', v'⟩ := p
    rw [Get_cons] at h
    show Get ((if k' = k then (k, v) else (k', v')) :: Update rest k v) k = some v
    by_cases hk : k' = k
    · rw [if_pos hk, Get_cons, if_pos rfl]
    · rw [if_neg hk] at h ⊢
      rw [Get_cons, if_neg hk]
      exact ih h

/-- Updating an absent key leaves every lookup unchanged. -/
theorem Get_Update_none {s : StateM} {k : String} (v : Value)
    (h : Get s k = none) : Get (Update s k v) k = none := by
  induction s with
  | nil => rfl
  | cons p rest ih =>
    obtain ⟨k', v'⟩ := p
    rw [Get_cons] at h
    show Get ((if k' = k then (k, v) else (k', v')) :: Update rest k v) k = none
    by_cases hk : k' = k
    · rw [if_pos hk] at h
      exact absurd h (by simp)
    · rw [if_neg hk] at h
      rw [if_neg hk, Get_cons, if_neg hk]
      exact ih h

/-- Updating one key does not change lookups of another. -/
theorem Get_Update_other {s : StateM} {k' k : String} (v : Value)
    (h : k' ≠ k) : Get (Update s k' v) k = Get s k := by
  induction s with
  | nil => rfl
  | cons p rest ih =>
    obtain ⟨k0, v0⟩ := p
    show Get ((if k0 = k' then (k', v) else (k0, v0)) :: Update rest k' v) k = _
    rw [Get_cons]
    by_cases hk : k0 = k'
    · rw [if_pos hk, Get_cons, if_neg h]
      have hk0 : k0 ≠ k := hk ▸ h
      rw [if_neg hk0]
      exact ih
    · rw [if_neg hk, Get_cons]
      by_cases hk0 : k0 = k
      · rw [if_pos hk0, if_pos hk0]
      · rw [if_neg hk0, if_neg hk0]
        exact ih

end Reconcile

namespace Reconcile

/-- Applying an action for a different key does not change a lookup. -/
theorem Get_applyAction_other {s : StateM} {u : update} {k : String}
    (h : u.key ≠ k) : Get (applyAction s u) k = Get s k := by
  obtain ⟨key, st, v, why⟩ := u
  cases st with
  | new =>
    cases v with
    | none => rfl
    | some v0 => exact Get_Add_other v0 h
  | old => exact Get_Delete_other h
  | dirty =>
    cases v with
    | none => rfl
    | some v0 => exact Get_Update_other v0 h

/-- A fix pass whose actions all concern other keys does not change a
lookup. -/
theorem fix_untouched {k : String} : ∀ (us : List update) (s : StateM),
    (∀ u ∈ us, u.key ≠ k) → Get (fix s us) k = Get s k := by
  intro us
  induction us with
  | nil => intro s _; rfl
  | cons u rest ih =>
    intro s h
    show Get (fix (applyAction s u) rest) k = Get s k
    rw [ih (applyAction s u) (fun x hx => h x (List.mem_cons_of_mem _ hx))]
    exact Get_applyAction_other (h u (List.mem_cons_self _ _))

/-- An empty key filter means no action concerns the key. -/
theorem filter_key_nil {us : List update} {k : String}
    (h : us.filter (fun u => u.key == k) = []) : ∀ u ∈ us, u.key ≠ k := by
  intro u hu hk
  have hmem : u ∈ us.filter (fun u => u.key == k) :=
    List.mem_filter.mpr ⟨hu, by simp [hk]⟩
  rw [h] at hmem
  simp at hmem

/-- A fix pass with no action for `k` leaves the lookup of `k` unchanged. -/
theorem fix_noop {us : List update} {k : String} (s : StateM)
    (h : us.filter (fun u => u.key == k) = []) : Get (fix s us) k = Get s k :=
  fix_untouched us s (filter_key_nil h)

/-- A fix pass whose sole action for an absent key `k` is a create leaves
`k` bound to the created value. -/
theorem fix_create {k : String} {vb : Value} {w : String} :
    ∀ (us : List update) (s : StateM),
    us.filter (fun u => u.key == k) = [⟨k, .new, some vb, w⟩] →
    Get s k = none → Get (fix s us) k = some vb := by
  intro us
  induction us with
  | nil => intro s hf _; simp at hf
  | cons u rest ih =>
    intro s hf hg
    by_cases hb : u.key = k
    · rw [List.filter_cons_of_pos (by simp [hb])] at hf
      have hu : u = ⟨k, .new, some vb, w⟩ := (List.cons.injEq .. ▸ hf).1
      have hrest : rest.filter (fun u => u.key == k) = [] := (List.cons.injEq .. ▸ hf).2
      show Get (fix (applyAction s u) rest) k = some vb
      rw [fix_noop _ hrest, hu]
      exact Get_Add_same vb hg
    · rw [List.filter_cons_of_neg (by simp [hb])] at hf
      show Get (fix (applyAction s u) rest) k = some vb
      exact ih (applyAction s u) hf (by rw [Get_applyAction_other hb]; exact hg)

/-- A fix pass whose sole action for key `k` is a delete leaves `k`
absent. -/
theorem fix_delete {k : String} {w : String} :
    ∀ (us : List update) (s : StateM),
    us.filter (fun u => u.key == k) = [⟨k, .old, none, w⟩] →
    Get (fix s us) k = none := by
  intro us
  induction us with
  | nil => intro s hf; simp at hf
  | cons u rest ih =>
    intro s hf
    by_cases hb : u.key = k
    · rw [List.filter_cons_of_pos (by simp [hb])] at hf
      have hu : u = ⟨k, .old, none, w⟩ := (List.cons.injEq .. ▸ hf).1
      have hrest : rest.filter (fun u => u.key == k) = [] := (List.cons.injEq .. ▸ hf).2
      show Get (fix (applyAction s u) rest) k = none
      rw [fix_noop _ hrest, hu]
      exact Get_Delete_same s k
    · rw [List.filter_cons_of_neg (by simp [hb])] at hf
      show Get (fix (applyAction s u) rest) k = none
      exact ih (applyAction s u) hf

/-- A fix pass whose sole action for a present key `k` is an update leaves
`k` bound to the new value. -/
theorem fix_update {k : String} {vb : Value} {w : String} :
    ∀ (us : List update) (s : StateM) (va : Value),
    us.filter (fun u => u.key == k) = [⟨k, .dirty, some vb, w⟩] →
    Get s k = some va → Get (fix s us) k = some vb := by
  intro us
  induction us with
  | nil => intro s va hf _; simp at hf
  | cons u rest ih =>
    intro s va hf hg
    by_cases hb : u.key = k
    · rw [List.filter_cons_of_pos (by simp [hb])] at hf
      have hu : u = ⟨k, .dirty, some vb, w⟩ := (List.cons.injEq .. ▸ hf).1
      have hrest : rest.filter (fun u => u.key == k) = [] := (List.cons.injEq .. ▸ hf).2
      show Get (fix (applyAction s u) rest) k = some vb
      rw [fix_noop _ hrest, hu]
      exact Get_Update_some vb hg
    · rw [List.filter_cons_of_neg (by simp [hb])] at hf
      show Get (fix (applyAction s u) rest) k = some vb
      exact ih (applyAction s u) va hf (by rw [Get_applyAction_other hb]; exact hg)

end Reconcile

namespace Reconcile

/-- Every action of phase 1 carries a key of the walked list and is a
create or an update. -/
theorem walkDesired_mem {A : StateM} :
    ∀ {l : List (String × Value)} {us1 : List update},
    walkDesired A l = .ok us1 → ∀ u ∈ us1,
    u.key ∈ l.map Prod.fst ∧ (u.st = .new ∨ u.st = .dirty) := by
  intro l
  induction l with
  | nil =>
    intro us1 h u hu
    simp only [walkDesired] at h
    cases h
    simp at hu
  | cons p rest ih =>
    obtain ⟨k', v'⟩ := p
    intro us1 h u hu
    simp only [walkDesired] at h
    split at h
    · cases hrec : walkDesired A rest with
      | error e => rw [hrec] at h; simp [Except.map] at h
      | ok tail =>
        rw [hrec] at h
        simp only [Except.map] at h
        cases h
        rcases List.mem_cons.mp hu with h1 | h2
        · subst h1; simp
        · have := ih hrec u h2
          exact ⟨by simp [this.1], this.2⟩
    · split at h
      · exact absurd h (by simp)
      · have := ih h u hu
        exact ⟨by simp [this.1], this.2⟩
      · cases hrec : walkDesired A rest with
        | error e => rw [hrec] at h; simp [Except.map] at h
        | ok tail =>
          rw [hrec] at h
          simp only [Except.map] at h
          cases h
          rcases List.mem_cons.mp hu with h1 | h2
          · subst h1; simp
          · have := ih hrec u h2
            exact ⟨by simp [this.1], this.2⟩

/-- Phase 1 emits no action for a key the walked list does not hold. -/
theorem walkDesired_filter_none {A : StateM} {l : List (String × Value)}
    {us1 : List update} {k : String} (hk : k ∉ l.map Prod.fst)
    (h : walkDesired A l = .ok us1) :
    us1.filter (fun u => u.key == k) = [] := by
  rw [List.filter_eq_nil_iff]
  intro u hu
  have := (walkDesired_mem h u hu).1
  simp only [beq_iff_eq]
  intro heq
  exact hk (heq ▸ this)

end Reconcile

namespace Reconcile

/-- The actions phase 1 emits for one key of the walked list: a single
create when the key is absent from `current`, nothing when the values
compare equal, a single update when they compare unequal. -/
theorem walkDesired_at {A : StateM} {k : String} {vb : Value} :
    ∀ {l : List (String × Value)} {us1 : List update},
    (l.map Prod.fst).Nodup → (k, vb) ∈ l → walkDesired A l = .ok us1 →
    (Get A k = none ∧
      us1.filter (fun u => u.key == k) = [⟨k, .new, some vb, whyNew k⟩]) ∨
    (∃ va, Get A k = some va ∧
      ((compare va vb = .ok none ∧ us1.filter (fun u => u.key == k) = []) ∨
       (∃ w, compare va vb = .ok (some w) ∧
        us1.filter (fun u => u.key == k) = [⟨k, .dirty, some vb, w⟩]))) := by
  intro l
  induction l with
  | nil => intro us1 _ hmem _; simp at hmem
  | cons p rest ih =>
    obtain ⟨k', v'⟩ := p
    intro us1 hnd hmem h
    have hnd' : (rest.map Prod.fst).Nodup := (List.nodup_cons.mp hnd).2
    have hnotin : k' ∉ rest.map Prod.fst := (List.nodup_cons.mp hnd).1
    simp only [walkDesired] at h
    rcases List.mem_cons.mp hmem with heq | hmem'
    · have hk : k' = k := (congrArg Prod.fst heq).symm
      have hv : v' = vb := (congrArg Prod.snd heq).symm
      subst hk
      subst hv
      split at h
      · cases hrec : walkDesired A rest with
        | error e => rw [hrec] at h; simp [Except.map] at h
        | ok tail =>
          rw [hrec] at h
          simp only [Except.map] at h
          cases h
          left
          refine ⟨by assumption, ?_⟩
          rw [List.filter_cons_of_pos (by simp)]
          rw [walkDesired_filter_none hnotin hrec]
      · rename_i currentValue hget
        split at h
        · exact absurd h (by simp)
        · rename_i hcmp
          right
          exact ⟨currentValue, hget,
            Or.inl ⟨hcmp, walkDesired_filter_none hnotin h⟩⟩
        · rename_i w hcmp
          cases hrec : walkDesired A rest with
          | error e => rw [hrec] at h; simp [Except.map] at h
          | ok tail =>
            rw [hrec] at h
            simp only [Except.map] at h
            cases h
            right
            refine ⟨currentValue, hget, Or.inr ⟨w, hcmp, ?_⟩⟩
            rw [List.filter_cons_of_pos (by simp)]
            rw [walkDesired_filter_none hnotin hrec]
    · have hkrest : k ∈ rest.map Prod.fst :=
        List.mem_map.mpr ⟨(k, vb), hmem', rfl⟩
      have hk : k' ≠ k := fun hkk => hnotin (hkk ▸ hkrest)
      split at h
      · cases hrec : walkDesired A rest with
        | error e => rw [hrec] at h; simp [Except.map] at h
        | ok tail =>
          rw [hrec] at h
          simp only [Except.map] at h
          cases h
          have := ih hnd' hmem' hrec
          rcases this with ⟨hg, hf⟩ | ⟨va, hg, hrest⟩
          · left
            refine ⟨hg, ?_⟩
            rw [List.filter_cons_of_neg (by simp [hk]), hf]
          · right
            refine ⟨va, hg, ?_⟩
            rcases hrest with ⟨hc, hf⟩ | ⟨w, hc, hf⟩
            · exact Or.inl ⟨hc, by rw [List.filter_cons_of_neg (by simp [hk]), hf]⟩
            · exact Or.inr ⟨w, hc, by rw [List.filter_cons_of_neg (by simp [hk]), hf]⟩
      · split at h
        · exact absurd h (by simp)
        · exact ih hnd' hmem' h
        · cases hrec : walkDesired A rest with
          | error e => rw [hrec] at h; simp [Except.map] at h
          | ok tail =>
            rw [hrec] at h
            simp only [Except.map] at h
            cases h
            have := ih hnd' hmem' hrec
            rcases this with ⟨hg, hf⟩ | ⟨va, hg, hrest⟩
            · left
              refine ⟨hg, ?_⟩
              rw [List.filter_cons_of_neg (by simp [hk]), hf]
            · right
              refine ⟨va, hg, ?_⟩
              rcases hrest with ⟨hc, hf⟩ | ⟨w, hc, hf⟩
              · exact Or.inl ⟨hc, by rw [List.filter_cons_of_neg (by simp [hk]), hf]⟩
              · exact Or.inr ⟨w, hc, by rw [List.filter_cons_of_neg (by simp [hk]), hf]⟩

end Reconcile

namespace Reconcile

/-- Every action of phase 2 is a delete with nil payload, for a key of the
walked list that is absent from `desired`. -/
theorem walkCurrent_mem {B : StateM} {l : List (String × Value)}
    {u : update} (hu : u ∈ walkCurrent B l) :
    u.st = .old ∧ u.v = none ∧ u.key ∈ l.map Prod.fst ∧ Get B u.key = none := by
  rw [walkCurrent, List.mem_filterMap] at hu
  obtain ⟨p, hp, hf⟩ := hu
  by_cases hg : Get B p.1 = none
  · rw [if_pos hg] at hf
    cases hf
    exact ⟨rfl, rfl, List.mem_map.mpr ⟨p, hp, rfl⟩, hg⟩
  · rw [if_neg hg] at hf
    exact absurd hf (by simp)

/-- Phase 2 emits no action for a key that is present in `desired`. -/
theorem walkCurrent_filter_present {B : StateM} {l : List (String × Value)}
    {k : String} (h : Get B k ≠ none) :
    (walkCurrent B l).filter (fun u => u.key == k) = [] := by
  rw [List.filter_eq_nil_iff]
  intro u hu
  simp only [beq_iff_eq]
  intro heq
  exact h (heq ▸ (walkCurrent_mem hu).2.2.2)

/-- Phase 2 emits no action for a key the walked list does not hold. -/
theorem walkCurrent_filter_nomem {B : StateM} {l : List (String × Value)}
    {k : String} (h : k ∉ l.map Prod.fst) :
    (walkCurrent B l).filter (fun u => u.key == k) = [] := by
  rw [List.filter_eq_nil_iff]
  intro u hu
  simp only [beq_iff_eq]
  intro heq
  exact h (heq ▸ (walkCurrent_mem hu).2.2.1)

/-- Phase 2 emits exactly one delete for a walked key absent from
`desired`. -/
theorem walkCurrent_filter_delete {B : StateM} {k : String} {va : Value} :
    ∀ {l : List (String × Value)},
    (l.map Prod.fst).Nodup → (k, va) ∈ l → Get B k = none →
    (walkCurrent B l).filter (fun u => u.key == k) =
      [⟨k, .old, none, whyOld k⟩] := by
  intro l
  induction l with
  | nil => intro _ hmem _; simp at hmem
  | cons p rest ih =>
    obtain ⟨k', v'⟩ := p
    intro hnd hmem hget
    have hnd' : (rest.map Prod.fst).Nodup := (List.nodup_cons.mp hnd).2
    have hnotin : k' ∉ rest.map Prod.fst := (List.nodup_cons.mp hnd).1
    show (List.filterMap _ ((k', v') :: rest)).filter _ = _
    rw [List.filterMap_cons]
    rcases List.mem_cons.mp hmem with heq | hmem'
    · have hk : k' = k := (congrArg Prod.fst heq).symm
      subst hk
      rw [if_pos hget]
      rw [List.filter_cons_of_pos (by simp)]
      have : ∀ u ∈ walkCurrent B rest, ¬ (u.key == k') = true := by
        intro u hu
        simp only [beq_iff_eq]
        intro hx
        exact hnotin (hx ▸ (walkCurrent_mem hu).2.2.1)
      rw [show (List.filterMap
          (fun p => if Get B p.1 = none
            then some ⟨p.1, state.old, none, whyOld p.1⟩ else none) rest)
          = walkCurrent B rest from rfl]
      rw [List.filter_eq_nil_iff.mpr this]
    · have hkrest : k ∈ rest.map Prod.fst :=
        List.mem_map.mpr ⟨(k, va), hmem', rfl⟩
      have hk : k' ≠ k := fun hkk => hnotin (hkk ▸ hkrest)
      have htail : (walkCurrent B rest).filter (fun u => u.key == k)
          = [⟨k, .old, none, whyOld k⟩] := ih hnd' hmem' hget
      by_cases hg : Get B k' = none
      · rw [if_pos hg]
        rw [List.filter_cons_of_neg (by simp [hk])]
        exact htail
      · rw [if_neg hg]
        exact htail

/-- Unfolding a successful diff into its two phases. -/
theorem diff_ok {A B : StateM} {us : List update}
    (h : diff A B = .ok us) :
    ∃ us1, walkDesired A B = .ok us1 ∧ us = us1 ++ walkCurrent B A := by
  rw [diff] at h
  cases hrec : walkDesired A B with
  | error e => rw [hrec] at h; simp [Except.map] at h
  | ok us1 =>
    rw [hrec] at h
    simp only [Except.map] at h
    cases h
    exact ⟨us1, rfl, rfl⟩

end Reconcile

namespace Reconcile

/-- Comparing a value with itself matches. -/
theorem compare_self (v : Value) : compare v v = .ok none := by
  cases v <;> simp [compare, checksum?]

/-- A key present in desired and absent from current receives exactly one
create action in one diff. -/
theorem diff_filter_create {A B : StateM} {us : List update} {k : String}
    {vb : Value} (hWB : WF B) (hB : Get B k = some vb) (hA : Get A k = none)
    (hd : diff A B = .ok us) :
    us.filter (fun u => u.key == k) = [⟨k, .new, some vb, whyNew k⟩] := by
  obtain ⟨us1, h1, rfl⟩ := diff_ok hd
  rw [List.filter_append]
  rcases walkDesired_at hWB (Get_mem hB) h1 with ⟨_, hf⟩ | ⟨va, hg, _⟩
  · rw [hf, walkCurrent_filter_present (by rw [hB]; simp)]
    rfl
  · rw [hA] at hg
    exact absurd hg (by simp)

/-- A key present in both states whose values compare equal receives no
action in one diff. -/
theorem diff_filter_match {A B : StateM} {us : List update} {k : String}
    {va vb : Value} (hWB : WF B) (hB : Get B k = some vb)
    (hA : Get A k = some va) (hcmp : compare va vb = .ok none)
    (hd : diff A B = .ok us) :
    us.filter (fun u => u.key == k) = [] := by
  obtain ⟨us1, h1, rfl⟩ := diff_ok hd
  rw [List.filter_append]
  rcases walkDesired_at hWB (Get_mem hB) h1 with ⟨hg, _⟩ | ⟨va', hg, hrest⟩
  · rw [hA] at hg
    exact absurd hg (by simp)
  · rw [hA] at hg
    have hva : va' = va := (Option.some.inj hg).symm
    subst hva
    rcases hrest with ⟨_, hf⟩ | ⟨w, hc, _⟩
    · rw [hf, walkCurrent_filter_present (by rw [hB]; simp)]
      rfl
    · rw [hcmp] at hc
      exact absurd hc (by simp)

/-- A key present in both states whose values compare unequal receives
exactly one update action in one diff. -/
theorem diff_filter_dirty {A B : StateM} {us : List update} {k : String}
    {va vb : Value} {w : String} (hWB : WF B) (hB : Get B k = some vb)
    (hA : Get A k = some va) (hcmp : compare va vb = .ok (some w))
    (hd : diff A B = .ok us) :
    us.filter (fun u => u.key == k) = [⟨k, .dirty, some vb, w⟩] := by
  obtain ⟨us1, h1, rfl⟩ := diff_ok hd
  rw [List.filter_append]
  rcases walkDesired_at hWB (Get_mem hB) h1 with ⟨hg, _⟩ | ⟨va', hg, hrest⟩
  · rw [hA] at hg
    exact absurd hg (by simp)
  · rw [hA] at hg
    have hva : va' = va := (Option.some.inj hg).symm
    subst hva
    rcases hrest with ⟨hc, _⟩ | ⟨w', hc, hf⟩
    · rw [hcmp] at hc
      exact absurd hc (by simp)
    · rw [hcmp] at hc
      have hw : w' = w := (Option.some.inj (Except.ok.inj hc)).symm
      subst hw
      rw [hf, walkCurrent_filter_present (by rw [hB]; simp)]
      rfl

/-- A successful diff implies the comparison of the two values bound to a
shared key returned without panicking. -/
theorem diff_compare_ok {A B : StateM} {us : List update} {k : String}
    {va vb : Value} (hWB : WF B) (hB : Get B k = some vb)
    (hA : Get A k = some va) (hd : diff A B = .ok us) :
    ∃ r, compare va vb = .ok r := by
  obtain ⟨us1, h1, _⟩ := diff_ok hd
  rcases walkDesired_at hWB (Get_mem hB) h1 with ⟨hg, _⟩ | ⟨va', hg, hrest⟩
  · rw [hA] at hg
    exact absurd hg (by simp)
  · rw [hA] at hg
    have hva : va' = va := (Option.some.inj hg).symm
    subst hva
    rcases hrest with ⟨hc, _⟩ | ⟨w, hc, _⟩
    · exact ⟨none, hc⟩
    · exact ⟨some w, hc⟩

/-- A key present in current and absent from desired receives exactly one
delete action in one diff. -/
theorem diff_filter_delete {A B : StateM} {us : List update} {k : String}
    {va : Value} (hWA : WF A) (hB : Get B k = none) (hA : Get A k = some va)
    (hd : diff A B = .ok us) :
    us.filter (fun u => u.key == k) = [⟨k, .old, none, whyOld k⟩] := by
  obtain ⟨us1, h1, rfl⟩ := diff_ok hd
  rw [List.filter_append]
  rw [walkDesired_filter_none ((Get_none_iff B k).mp hB) h1]
  rw [walkCurrent_filter_delete hWA (Get_mem hA) hB]
  rfl

/-- A key absent from both states receives no action in one diff. -/
theorem diff_filter_absent {A B : StateM} {us : List update} {k : String}
    (hB : Get B k = none) (hA : Get A k = none)
    (hd : diff A B = .ok us) :
    us.filter (fun u => u.key == k) = [] := by
  obtain ⟨us1, h1, rfl⟩ := diff_ok hd
  rw [List.filter_append]
  rw [walkDesired_filter_none ((Get_none_iff B k).mp hB) h1]
  rw [walkCurrent_filter_nomem ((Get_none_iff A k).mp hA)]
  rfl

end Reconcile

namespace Reconcile

/-- C1: for every key `k` present in desired and absent from current
(`Get` reports absent), `diff current desired` contains exactly one create
action for `k` carrying desired's value, and after the apply pass
`Get current k` equals desired's value. -/
theorem C1_create_then_get (A B : StateM) (k : String) (vb : Value)
    (us : List update) (hWB : WF B) (hB : Get B k = some vb)
    (hA : Get A k = none) (hd : diff A B = .ok us) :
    us.filter (fun u => u.key == k) = [⟨k, .new, some vb, whyNew k⟩]
    ∧ Get (fix A us) k = some vb := by
  have hf := diff_filter_create hWB hB hA hd
  exact ⟨hf, fix_create us A hf hA⟩

/-- Witness for C1 at current = {}, desired = {x: 1}. -/
theorem C1_witness :
    ([⟨"x", .new, some (Value.plain 1), whyNew "x"⟩] : List update).filter
        (fun u => u.key == "x") = [⟨"x", .new, some (Value.plain 1), whyNew "x"⟩]
    ∧ Get (fix [] [⟨"x", .new, some (Value.plain 1), whyNew "x"⟩]) "x"
        = some (Value.plain 1) :=
  C1_create_then_get [] [("x", Value.plain 1)] "x" (Value.plain 1)
    [⟨"x", .new, some (Value.plain 1), whyNew "x"⟩]
    (show (keys [("x", Value.plain 1)]).Nodup by decide)
    (by decide) (by decide) (by rfl)

/-- C2: for every key `k` present in current and absent from desired,
`diff current desired` contains exactly one delete action for `k` with nil
value, and after the apply pass `Get current k` is absent. -/
theorem C2_delete_then_absent (A B : StateM) (k : String) (va : Value)
    (us : List update) (hWA : WF A) (hB : Get B k = none)
    (hA : Get A k = some va) (hd : diff A B = .ok us) :
    us.filter (fun u => u.key == k) = [⟨k, .old, none, whyOld k⟩]
    ∧ Get (fix A us) k = none := by
  have hf := diff_filter_delete hWA hB hA hd
  exact ⟨hf, fix_delete us A hf⟩

/-- Witness for C2 at current = {c: 3}, desired = {}. -/
theorem C2_witness :
    ([⟨"c", .old, none, whyOld "c"⟩] : List update).filter
        (fun u => u.key == "c") = [⟨"c", .old, none, whyOld "c"⟩]
    ∧ Get (fix [("c", Value.plain 3)] [⟨"c", .old, none, whyOld "c"⟩]) "c"
        = none :=
  C2_delete_then_absent [("c", Value.plain 3)] [] "c" (Value.plain 3)
    [⟨"c", .old, none, whyOld "c"⟩]
    (show (keys [("c", Value.plain 3)]).Nodup by decide)
    (by decide) (by decide) (by rfl)

/-- C3: for every pair of well-formed states and every key, one diff pass
emits at most one action for that key: the create/update phase and the
delete phase examine disjoint conditions. -/
theorem C3_at_most_one_action (A B : StateM) (us : List update) (k : String)
    (hWA : WF A) (hWB : WF B) (hd : diff A B = .ok us) :
    (us.filter (fun u => u.key == k)).length ≤ 1 := by
  cases hB : Get B k with
  | none =>
    cases hA : Get A k with
    | none =>
      rw [diff_filter_absent hB hA hd]
      exact Nat.zero_le 1
    | some va =>
      rw [diff_filter_delete hWA hB hA hd]
      exact Nat.le_refl 1
  | some vb =>
    cases hA : Get A k with
    | none =>
      rw [diff_filter_create hWB hB hA hd]
      exact Nat.le_refl 1
    | some va =>
      obtain ⟨r, hr⟩ := diff_compare_ok hWB hB hA hd
      cases r with
      | none =>
        rw [diff_filter_match hWB hB hA hr hd]
        exact Nat.zero_le 1
      | some w =>
        rw [diff_filter_dirty hWB hB hA hr hd]
        exact Nat.le_refl 1

/-- Witness for C3 at current = {a: 1, c: 3}, desired = {a: 1, b: 2},
key b. -/
theorem C3_witness :
    (([⟨"b", .new, some (Value.plain 2), whyNew "b"⟩,
       ⟨"c", .old, none, whyOld "c"⟩] : List update).filter
        (fun u => u.key == "b")).length ≤ 1 :=
  C3_at_most_one_action
    [("a", Value.plain 1), ("c", Value.plain 3)]
    [("a", Value.plain 1), ("b", Value.plain 2)]
    [⟨"b", .new, some (Value.plain 2), whyNew "b"⟩,
     ⟨"c", .old, none, whyOld "c"⟩] "b"
    (show (keys [("a", Value.plain 1), ("c", Value.plain 3)]).Nodup by decide)
    (show (keys [("a", Value.plain 1), ("b", Value.plain 2)]).Nodup by decide)
    (by rfl)

end Reconcile

namespace Reconcile

/-- C4: in one diff result every create and every update action precedes
every delete action; deletions are never interleaved with creations or
updates. -/
theorem C4_creates_before_deletes (A B : StateM) (us : List update)
    (hd : diff A B = .ok us) (i j : Nat) (hi : i < us.length)
    (hj : j < us.length)
    (hsti : (us.get ⟨i, hi⟩).st = .new ∨ (us.get ⟨i, hi⟩).st = .dirty)
    (hstj : (us.get ⟨j, hj⟩).st = .old) : i < j := by
  obtain ⟨us1, h1, heq⟩ := diff_ok hd
  subst heq
  have hi1 : i < us1.length := by
    by_contra hge
    push_neg at hge
    have hki : i - us1.length < (walkCurrent B A).length := by
      have hlen := hi
      rw [List.length_append] at hlen
      omega
    have heq2 : (us1 ++ walkCurrent B A).get ⟨i, hi⟩
        = (walkCurrent B A).get ⟨i - us1.length, hki⟩ := by
      simp [List.getElem_append_right hge]
    have hmem : (us1 ++ walkCurrent B A).get ⟨i, hi⟩ ∈ walkCurrent B A := by
      rw [heq2]
      exact List.get_mem _ _ _
    have hold := (walkCurrent_mem hmem).1
    rcases hsti with h | h <;> rw [h] at hold <;> exact absurd hold (by simp)
  have hj1 : us1.length ≤ j := by
    by_contra hlt
    push_neg at hlt
    have heq2 : (us1 ++ walkCurrent B A).get ⟨j, hj⟩ = us1.get ⟨j, hlt⟩ := by
      simp [List.getElem_append_left hlt]
    have hmem : (us1 ++ walkCurrent B A).get ⟨j, hj⟩ ∈ us1 := by
      rw [heq2]
      exact List.get_mem _ _ _
    have hst := (walkDesired_mem h1 _ hmem).2
    rcases hst with h | h <;> rw [hstj] at h <;> exact absurd h (by simp)
  exact Nat.lt_of_lt_of_le hi1 hj1

/-- Witness for C4 at current = {a: 1, c: 3}, desired = {a: 1, b: 2}:
the create at index 0 precedes the delete at index 1. -/
theorem C4_witness : 0 < 1 :=
  C4_creates_before_deletes
    [("a", Value.plain 1), ("c", Value.plain 3)]
    [("a", Value.plain 1), ("b", Value.plain 2)]
    [⟨"b", .new, some (Value.plain 2), whyNew "b"⟩,
     ⟨"c", .old, none, whyOld "c"⟩]
    (by rfl) 0 1 (by decide) (by decide) (Or.inl (by decide)) (by decide)

/-- Phase 1 over a list all of whose values compare equal to their binding
in `current` emits nothing. -/
theorem walkDesired_all_match {A : StateM} :
    ∀ {l : List (String × Value)},
    (∀ p ∈ l, ∃ va, Get A p.1 = some va ∧ compare va p.2 = .ok none) →
    walkDesired A l = .ok [] := by
  intro l
  induction l with
  | nil => intro _; rfl
  | cons p rest ih =>
    obtain ⟨k, v⟩ := p
    intro h
    obtain ⟨va, hg, hc⟩ := h (k, v) (List.mem_cons_self _ _)
    simp only [walkDesired, hg, hc]
    exact ih fun q hq => h q (List.mem_cons_of_mem _ hq)

/-- Phase 2 over a list all of whose keys are present in `desired` emits
nothing. -/
theorem walkCurrent_all_present {B : StateM} {l : List (String × Value)}
    (h : ∀ p ∈ l, Get B p.1 ≠ none) : walkCurrent B l = [] := by
  rw [walkCurrent, List.filterMap_eq_nil_iff]
  intro p hp
  rw [if_neg (h p hp)]

/-- Unfolding a successful Reconcile into its diff and fix passes. -/
theorem Reconcile_ok {A B A2 : StateM} (h : Reconcile A B = .ok A2) :
    ∃ us, diff A B = .ok us ∧ A2 = fix A us := by
  rw [Reconcile] at h
  cases hd : diff A B with
  | error e => rw [hd] at h; simp [Except.map] at h
  | ok us =>
    rw [hd] at h
    simp only [Except.map] at h
    cases h
    exact ⟨us, rfl, rfl⟩

end Reconcile

namespace Reconcile

/-- C5: diff of two content-identical well-formed states is empty, and
after one successful Reconcile against a state that faithfully applies
every mutation, a second diff of the same pair is empty. -/
theorem C5_idempotent (A B : StateM) (hWA : WF A) (hWB : WF B) :
    ((∀ k, Get A k = none ↔ Get B k = none)
      ∧ (∀ k va vb, Get A k = some va → Get B k = some vb →
          compare va vb = .ok none) →
      diff A B = .ok [])
    ∧ (∀ A2, Reconcile A B = .ok A2 → diff A2 B = .ok []) := by
  constructor
  · rintro ⟨hkeys, hcmp⟩
    have hmatch : ∀ p ∈ B, ∃ va, Get A p.1 = some va ∧ compare va p.2 = .ok none := by
      intro p hp
      have hB : Get B p.1 = some p.2 := Get_of_mem hWB (by cases p; exact hp)
      cases hA : Get A p.1 with
      | none =>
        have : Get B p.1 = none := (hkeys p.1).mp hA
        rw [hB] at this
        exact absurd this (by simp)
      | some va => exact ⟨va, rfl, hcmp p.1 va p.2 hA hB⟩
    have hpres : ∀ p ∈ A, Get B p.1 ≠ none := by
      intro p hp hBn
      have hAn : Get A p.1 = none := (hkeys p.1).mpr hBn
      have hA : Get A p.1 = some p.2 := Get_of_mem hWA (by cases p; exact hp)
      rw [hA] at hAn
      exact absurd hAn (by simp)
    rw [diff, walkDesired_all_match hmatch, walkCurrent_all_present hpres]
    rfl
  · intro A2 hrec
    obtain ⟨us, hd, hA2⟩ := Reconcile_ok hrec
    subst hA2
    have hmatch : ∀ p ∈ B, ∃ v2, Get (fix A us) p.1 = some v2
        ∧ compare v2 p.2 = .ok none := by
      intro p hp
      have hB : Get B p.1 = some p.2 := Get_of_mem hWB (by cases p; exact hp)
      cases hA : Get A p.1 with
      | none =>
        have hf := diff_filter_create hWB hB hA hd
        exact ⟨p.2, fix_create us A hf hA, compare_self p.2⟩
      | some va =>
        obtain ⟨r, hr⟩ := diff_compare_ok hWB hB hA hd
        cases r with
        | none =>
          have hf := diff_filter_match hWB hB hA hr hd
          refine ⟨va, ?_, hr⟩
          rw [fix_noop A hf]
          exact hA
        | some w =>
          have hf := diff_filter_dirty hWB hB hA hr hd
          exact ⟨p.2, fix_update us A va hf hA, compare_self p.2⟩
    have hpres : ∀ p ∈ fix A us, Get B p.1 ≠ none := by
      intro p hp hBn
      have hkey : p.1 ∈ keys (fix A us) := List.mem_map.mpr ⟨p, hp, rfl⟩
      have hA2n : Get (fix A us) p.1 = none := by
        cases hA : Get A p.1 with
        | none =>
          rw [fix_noop A (diff_filter_absent hBn hA hd)]
          exact hA
        | some va => exact fix_delete us A (diff_filter_delete hWA hBn hA hd)
      exact (Get_none_iff (fix A us) p.1).mp hA2n hkey
    rw [diff, walkDesired_all_match hmatch, walkCurrent_all_present hpres]
    rfl

/-- Witness for C5: part one at the pair {m: 5}, {m: 5}; part two after
reconciling {k: 1} toward {k: 2}, whose apply pass yields {k: 2}. -/
theorem C5_witness :
    diff [("m", Value.plain 5)] [("m", Value.plain 5)] = .ok []
    ∧ diff [("k", Value.plain 2)] [("k", Value.plain 2)] = .ok [] := by
  constructor
  · exact (C5_idempotent [("m", Value.plain 5)] [("m", Value.plain 5)]
      (show (keys [("m", Value.plain 5)]).Nodup by decide)
      (show (keys [("m", Value.plain 5)]).Nodup by decide)).1
      ⟨fun k => Iff.rfl, fun k va vb h1 h2 => by
        rw [h1] at h2
        have : va = vb := Option.some.inj h2
        rw [this]
        exact compare_self vb⟩
  · exact (C5_idempotent [("k", Value.plain 1)] [("k", Value.plain 2)]
      (show (keys [("k", Value.plain 1)]).Nodup by decide)
      (show (keys [("k", Value.plain 2)]).Nodup by decide)).2
      [("k", Value.plain 2)] (by rfl)

end Reconcile

namespace Reconcile

/-- C6 counterexample: both values expose the checksum capability and the
one-byte checksums differ, yet `compare` returns no mismatch: building the
reason slices `sum[:5]` out of range and the call panics. -/
theorem C6_counterexample :
    checksum? (Value.blob [] [1]) = some [1]
    ∧ checksum? (Value.blob [] [2]) = some [2]
    ∧ ([1] : List Nat) ≠ [2]
    ∧ compare (Value.blob [] [1]) (Value.blob [] [2]) = .error () :=
  ⟨rfl, rfl, by decide, rfl⟩

/-- C6 (amended): for two checksum-capable values `compare` compares the
checksums byte for byte; equal checksums match, and unequal checksums at
least five bytes long yield a mismatch whose reason includes the five-byte
hex prefix of each checksum (with a shorter checksum the mismatch path
panics instead of returning, see the counterexample). -/
theorem C6_checksum_compare (a b : Value) (sa sb : List Nat)
    (ha : checksum? a = some sa) (hb : checksum? b = some sb) :
    (sa = sb → compare a b = .ok none)
    ∧ (sa ≠ sb → 5 ≤ sa.length → 5 ≤ sb.length →
        ∃ why, compare a b = .ok (some why)
        ∧ ∃ p q, why = p ++ hexBytes (sa.take 5) ++ q ++ hexBytes (sb.take 5)) := by
  constructor
  · intro heq
    unfold compare
    rw [ha, hb]
    simp [heq]
  · intro hne hla hlb
    refine ⟨checksumWhy a sa b sb, ?_, ?_⟩
    · unfold compare
      rw [ha, hb]
      simp [hne, hla, hlb]
    · refine ⟨render a ++ " sum=", " != " ++ render b ++ " sum=", ?_⟩
      unfold checksumWhy
      rw [String.append_assoc (render a ++ " sum=" ++ hexBytes (sa.take 5)) " != " (render b)]
      rw [String.append_assoc (render a ++ " sum=" ++ hexBytes (sa.take 5)) (" != " ++ render b) " sum="]

/-- Witness for C6 (amended) at two blobs with distinct six-byte sums. -/
theorem C6_witness :
    (([1, 2, 3, 4, 5, 6] : List Nat) = [9, 8, 7, 6, 5, 250] →
      compare (Value.blob [0] [1, 2, 3, 4, 5, 6]) (Value.blob [0] [9, 8, 7, 6, 5, 250]) = .ok none)
    ∧ (([1, 2, 3, 4, 5, 6] : List Nat) ≠ [9, 8, 7, 6, 5, 250] →
        5 ≤ ([1, 2, 3, 4, 5, 6] : List Nat).length →
        5 ≤ ([9, 8, 7, 6, 5, 250] : List Nat).length →
        ∃ why, compare (Value.blob [0] [1, 2, 3, 4, 5, 6])
            (Value.blob [0] [9, 8, 7, 6, 5, 250]) = .ok (some why)
        ∧ ∃ p q, why = p ++ hexBytes (([1, 2, 3, 4, 5, 6] : List Nat).take 5)
            ++ q ++ hexBytes (([9, 8, 7, 6, 5, 250] : List Nat).take 5)) :=
  C6_checksum_compare (Value.blob [0] [1, 2, 3, 4, 5, 6])
    (Value.blob [0] [9, 8, 7, 6, 5, 250])
    [1, 2, 3, 4, 5, 6] [9, 8, 7, 6, 5, 250] rfl rfl

/-- C7: a failing input for the claim that the diff pass cannot fault.
Both stores answer every State call normally and both values return their
`Sum()` normally, but the sums are one byte long and differ: `compare`
panics slicing `sum[:5]`, so diff and Reconcile abort instead of
completing. -/
theorem C7_short_checksum_panics :
    diff [("k", Value.blob [0] [1])] [("k", Value.blob [0] [2])] = .error ()
    ∧ Reconcile [("k", Value.blob [0] [1])] [("k", Value.blob [0] [2])] = .error () :=
  ⟨rfl, rfl⟩

/-- C8: when not both values expose the checksum capability, `compare`
falls back to deep (structural) equality: equal values match, unequal
values yield a mismatch carrying exactly the generic structural-mismatch
reason; the outcome is binary, never a score. -/
theorem C8_deepequal_fallback (a b : Value)
    (h : ¬((checksum? a).isSome ∧ (checksum? b).isSome)) :
    (a = b → compare a b = .ok none)
    ∧ (a ≠ b → compare a b = .ok (some ErrDeepEqualMismatch)) := by
  refine ⟨fun heq => heq ▸ compare_self a, fun hne => ?_⟩
  cases a with
  | plain n =>
    cases b with
    | plain m => simp [compare, checksum?, hne]
    | blob d s => simp [compare, checksum?, hne]
  | blob d s =>
    cases b with
    | plain m => simp [compare, checksum?, hne]
    | blob d2 s2 => exact absurd ⟨by simp [checksum?], by simp [checksum?]⟩ h

/-- Witness for C8 at two plain values 1 and 2. -/
theorem C8_witness :
    compare (Value.plain 1) (Value.plain 2) = .ok (some ErrDeepEqualMismatch) :=
  (C8_deepequal_fallback (Value.plain 1) (Value.plain 2) (by decide)).2 (by decide)

end Reconcile

namespace Reconcile

/-- C9 counterexample: at current = {}, desired = {x: 1} the single applied
action is a create, and the verbose trace renders its kind with the label
"Add" — not one of Create, Delete, Update as claimed. -/
theorem C9_counterexample :
    diff [] [("x", Value.plain 1)]
      = .ok [⟨"x", .new, some (Value.plain 1), whyNew "x"⟩]
    ∧ fixTrace [⟨"x", .new, some (Value.plain 1), whyNew "x"⟩] true
      = ["key:x state:Add\n\twhy:current state doesn't have x doesn't exist\n "]
    ∧ state.String state.new = "Add"
    ∧ ("Add" : String) ≠ "Create" :=
  ⟨rfl, by decide, rfl, by decide⟩

/-- C9 (amended): for every action in a diff result, the verbose trace
emits one line per action in order, the line carries the key, the rendered
kind and the reason, and the kind renders as one of the labels Add, Delete,
Update (create actions render as "Add", not "Create"). -/
theorem C9_trace_labels (A B : StateM) (us : List update)
    (hd : diff A B = .ok us) (u : update) (hu : u ∈ us) :
    fixTrace us true = us.map traceLine
    ∧ traceLine u
        = "key:" ++ u.key ++ " state:" ++ state.String u.st
          ++ "\n\twhy:" ++ u.why ++ "\n "
    ∧ (state.String u.st = "Add" ∨ state.String u.st = "Delete"
       ∨ state.String u.st = "Update") := by
  refine ⟨rfl, rfl, ?_⟩
  rcases hst : u.st with _ | _ | _
  · exact Or.inl rfl
  · exact Or.inr (Or.inl rfl)
  · exact Or.inr (Or.inr rfl)

/-- Witness for C9 (amended) at current = {c: 3}, desired = {}. -/
theorem C9_witness :
    fixTrace [⟨"c", .old, none, whyOld "c"⟩] true
      = ([⟨"c", .old, none, whyOld "c"⟩] : List update).map traceLine
    ∧ traceLine ⟨"c", .old, none, whyOld "c"⟩
        = "key:" ++ "c" ++ " state:" ++ state.String state.old
          ++ "\n\twhy:" ++ whyOld "c" ++ "\n "
    ∧ (state.String state.old = "Add" ∨ state.String state.old = "Delete"
       ∨ state.String state.old = "Update") :=
  C9_trace_labels [("c", Value.plain 3)] [] [⟨"c", .old, none, whyOld "c"⟩]
    (by rfl) ⟨"c", .old, none, whyOld "c"⟩ (by simp)

end Reconcile

namespace Source

/-- Atoi of the empty column capture fails. -/
theorem atoi_empty : atoi "" = none := rfl

/-- C10: every matched column-less line, whose submatch record carries an
empty column capture in group 3, parses to an Error whose Column is -1 and
whose Message is the trailing message capture of group 4 — never the empty
column capture. -/
theorem C10_columnless_message (full f l msg : String) :
    ∃ ln : Int, ParseSourceErrors [[full, f, l, "", msg]]
      = [⟨f, ln, -1, msg⟩] := by
  unfold ParseSourceErrors
  rw [List.map]
  rw [List.map]
  cases hl : atoi l with
  | none =>
    refine ⟨0, ?_⟩
    simp [mkError, hl, atoi_empty]
  | some n =>
    refine ⟨n, ?_⟩
    simp [mkError, hl, atoi_empty]

end Source
